import Mathlib

/-!
Shallow embedding of the query-building core of the repository.

Part 1 embeds `packages/tiny-graphql-query-compiler/src/index.ts`:
the `FieldSelection` / `FieldCall` / `Variable` data model and the
functions `compileFieldSelection`, `extractVariables`, `compileVariables`,
`compile` and `compileWithVariableValues`.

JavaScript conventions used by the embedding:
* JS objects are modelled as insertion-ordered association lists
  `List (String × _)`; property assignment is `upsert` (update in place
  keeping the original position, else append), and `Object.assign` folds
  `upsert` over the source entries.  This matches JS enumeration order for
  the non-integer-index string keys that appear in selections.
* `null` and `undefined` are collapsed where the source only ever tests
  them with `== null` / `!= null` (`Variable.value` is an `Option`);
  argument values keep them separate because `value !== null && value !==
  undefined` names both.
* A thrown JS exception is an `Except.error` carrying the message.
* Literal (non-`Variable`) argument values are modelled as scalar JSON
  literals; JS numbers are modelled as integers.
-/

namespace TinyGraphQL

/-- Scalar JSON literal usable as a concrete argument or variable value. -/
inductive Lit where
  | str (s : String)
  | num (n : Int)
  | boolLit (b : Bool)
deriving DecidableEq, Repr

/-- One reference to a variable somewhere in a selection (`class Variable`). -/
structure Variable where
  type : String
  name : Option String := none
  value : Option Lit := none
deriving DecidableEq, Repr

/-- The method `Variable.present`: `this.value != null`. -/
def Variable.present (v : Variable) : Bool := v.value.isSome

/-- Value of one argument of a `FieldCall`: a `Variable`, a literal, or the
JS values `null` / `undefined` (which the compiler filters out). -/
inductive ArgValue where
  | avar (v : Variable)
  | lit (l : Lit)
  | nullArg
  | undefinedArg
deriving DecidableEq, Repr

mutual
/-- One value of the `FieldSelection` map:
`boolean | null | undefined | FieldCall | FieldSelection`.
`nullV` stands for both `null` and `undefined` (neither is a boolean, a
`FieldCall` instance, nor survives `Object.entries` recursion). -/
inductive FieldValue where
  | boolV (b : Bool)
  | nullV
  | callV (c : FieldCall)
  | selV (s : FieldSelection)

/-- The `FieldCall` class: argument map and optional subselection. -/
inductive FieldCall where
  | mk (args : List (String × ArgValue)) (subselection : OptFieldSelection)

/-- Optional subselection of a `FieldCall` (kept out of `Option` so the
mutual recursion stays structural). -/
inductive OptFieldSelection where
  | onone
  | osome (s : FieldSelection)

/-- A `FieldSelection`: insertion-ordered map from field name to value. -/
inductive FieldSelection where
  | nil
  | cons (field : String) (value : FieldValue) (rest : FieldSelection)
end

/-- Operation kind union `"query" | "subscription" | "mutation"`. -/
inductive OpType where
  | query
  | subscription
  | mutation
deriving DecidableEq, Repr

/-- String interpolation of the operation kind. -/
def OpType.render : OpType → String
  | .query => "query"
  | .subscription => "subscription"
  | .mutation => "mutation"

/-- The `BuilderOperation` interface. -/
structure BuilderOperation where
  type : OpType
  fields : FieldSelection
  name : Option String := none
  directives : Option (List String) := none

/-- JS property assignment `m[k] = v` on an insertion-ordered object:
an existing key keeps its position, a new key is appended. -/
def upsert {α : Type} (m : List (String × α)) (k : String) (v : α) : List (String × α) :=
  if m.any (fun p => p.1 == k) then
    m.map (fun p => if p.1 == k then (k, v) else p)
  else
    m ++ [(k, v)]

/-- JS `Object.assign(target, source)`: assign every entry of `source`
onto `target` in order. -/
def assignAll {α : Type} (target source : List (String × α)) : List (String × α) :=
  source.foldl (fun acc p => upsert acc p.1 p.2) target

/-- JS truthiness test `if (variables[k])` specialised to key presence
(the stored `Variable` objects are always truthy). -/
def hasKey {α : Type} (m : List (String × α)) (k : String) : Bool :=
  m.any (fun p => p.1 == k)

/-- The `while (variables[name + count]) count++` loop of `nextName`,
with fuel bounding the search; `nextName` passes fuel `m.length + 1`,
which by pigeonhole always reaches a free suffix, so the fuel-exhausted
branch is unreachable and the model agrees with the JS loop. -/
def findSuffix (m : List (String × Variable)) (name : String) : Nat → Nat → String
  | 0, count => name ++ toString count
  | fuel + 1, count =>
    if hasKey m (name ++ toString count) then findSuffix m name fuel (count + 1)
    else name ++ toString count

/-- The `nextName` closure of `extractVariables`. -/
def nextName (m : List (String × Variable)) (name : String) : String :=
  if hasKey m name then findSuffix m name (m.length + 1) 1 else name

/-- Key under which a `Variable` is stored: `value.name ?? nextName(name)`. -/
def varKeyName (m : List (String × Variable)) (v : Variable) (argName : String) : String :=
  match v.name with
  | some n => n
  | none => nextName m argName

mutual
/-- Body of `extractVariables`: the `Object.entries(fields).forEach` walk,
threading the `variables` map. -/
def extractVarsGo : FieldSelection → List (String × Variable) → List (String × Variable)
  | .nil, vars => vars
  | .cons _field v rest, vars => extractVarsGo rest (extractVarsVal v vars)

/-- One entry of the `extractVariables` walk.  A `FieldCall` contributes its
`Variable`-valued args (its subselection is NOT traversed, exactly as in the
source); a plain nested selection is extracted into a fresh map that is then
merged with `Object.assign`; booleans, `null` and `undefined` contribute
nothing. -/
def extractVarsVal : FieldValue → List (String × Variable) → List (String × Variable)
  | .callV (.mk args _sub), vars =>
    args.foldl
      (fun acc p =>
        match p.2 with
        | .avar v => upsert acc (varKeyName acc v p.1) v
        | _ => acc)
      vars
  | .selV s, vars => assignAll vars (extractVarsGo s [])
  | _, vars => vars
end

/-- The `extractVariables` function.  When `onlyPresentVariableValues` is
set, the final loop deletes every entry whose `value == null`. -/
def extractVariables (fields : FieldSelection) (onlyPresentVariableValues : Bool := false) :
    List (String × Variable) :=
  let vars := extractVarsGo fields []
  if onlyPresentVariableValues then vars.filter (fun p => p.2.value.isSome)
  else vars

/-- Is an argument value the JS literal `null` or `undefined`?  These are
removed by the first `entries` filter of `compileFieldSelection`. -/
def isNullish : ArgValue → Bool
  | .nullArg => true
  | .undefinedArg => true
  | _ => false

/-- The second `entries` filter of `compileFieldSelection`:
`value instanceof Variable ? value.present() : true`. -/
def argPresent : ArgValue → Bool
  | .avar v => v.present
  | _ => true

/-- The argument entries that `compileFieldSelection` renders for one call:
non-nullish, and additionally present when `onlyPresentVariableValues`. -/
def presentEntries (args : List (String × ArgValue)) (onlyPresentVariableValues : Bool) :
    List (String × ArgValue) :=
  let entries := args.filter (fun p => !(isNullish p.2))
  if onlyPresentVariableValues then entries.filter (fun p => argPresent p.2) else entries

/-- JSON string escaping for one character, as `JSON.stringify` performs it
on the scalar literals the model covers. -/
def jsonEscapeChar (c : Char) : String :=
  if c = '"' then "\\\""
  else if c = '\\' then "\\\\"
  else if c = '\n' then "\\n"
  else if c = '\r' then "\\r"
  else if c = '\t' then "\\t"
  else if c.toNat < 32 then
    "\\u00" ++ String.mk [Nat.digitChar (c.toNat / 16), Nat.digitChar (c.toNat % 16)]
  else String.mk [c]

/-- Rendering `JSON.stringify` of a scalar literal. -/
def jsonStringify : Lit → String
  | .str s => "\"" ++ String.join (s.data.map jsonEscapeChar) ++ "\""
  | .num n => toString n
  | .boolLit b => if b then "true" else "false"

/-- Rendering of one argument signature:
`name: $variableName` or `name: JSON.stringify(value)`. -/
def renderArg (p : String × ArgValue) : String :=
  p.1 ++ ": " ++
    (match p.2 with
     | .avar v => "$" ++ (v.name.getD p.1)
     | .lit l => jsonStringify l
     | .nullArg => "null"
     | .undefinedArg => "undefined")

/-- The rendered argument list of one `FieldCall`: `"(…)"`, or `""` when
no signatures survive the filters. -/
def callArgsString (args : List (String × ArgValue)) (onlyPresentVariableValues : Bool) : String :=
  let signatures := (presentEntries args onlyPresentVariableValues).map renderArg
  if signatures.length > 0 then "(" ++ String.intercalate ", " signatures ++ ")"
  else ""

/-- Per-level postlude of `compileFieldSelection`: the trailing
`.filter(v => !!v)` (falsy lines are `false` entries — modelled as no line —
and empty strings) followed by the two-space indentation `map`. -/
def finishLevel (lines : List String) : List String :=
  (lines.filter (fun l => l != "")).map (fun l => "  " ++ l)

mutual
/-- The `flatMap` stage of `compileFieldSelection`.  A recursive
`compileFieldSelection` call on a nested selection is
`finishLevel <$> compileEntries …`;  a `null`/`undefined` value falls into
the final `else` branch whose recursive call evaluates
`Object.entries(null)` and throws a `TypeError`. -/
def compileEntries : FieldSelection → Bool → Except String (List String)
  | .nil, _ => .ok []
  | .cons field v rest, b => do
    let l ← compileEntryLines field v b
    let r ← compileEntries rest b
    .ok (l ++ r)

/-- Lines contributed by one field entry of the `flatMap`. -/
def compileEntryLines : String → FieldValue → Bool → Except String (List String)
  | field, .boolV bv, _ => .ok (if bv then [field] else [])
  | _field, .nullV, _ => .error "TypeError: Cannot convert undefined or null to object"
  | field, .callV (.mk args sub), b =>
    let argsStr := callArgsString args b
    match sub with
    | .osome s => do
      let inner ← compileEntries s b
      .ok ((field ++ argsStr ++ " \x7b") :: finishLevel inner ++ ["\x7d"])
    | .onone => .ok [field ++ argsStr]
  | field, .selV s, b => do
    let inner ← compileEntries s b
    .ok ((field ++ " \x7b") :: finishLevel inner ++ ["\x7d"])
end

/-- The `compileFieldSelection` function: flat-mapped lines, then the
per-level filter and indentation. -/
def compileFieldSelection (fields : FieldSelection) (onlyPresentVariableValues : Bool) :
    Except String (List String) := do
  let lines ← compileEntries fields onlyPresentVariableValues
  .ok (finishLevel lines)

/-- The `compileVariables` function: the document's variable signature. -/
def compileVariables (operation : BuilderOperation) (onlyPresentVariableValues : Bool := false) :
    String :=
  let vars := extractVariables operation.fields onlyPresentVariableValues
  if vars.length == 0 then ""
  else
    "(" ++ String.intercalate ", " (vars.map (fun p => "$" ++ p.1 ++ ": " ++ p.2.type)) ++ ")"

/-- Rendering of the optional directives:
a space-joined suffix when present and non-empty. -/
def directivesString (operation : BuilderOperation) : String :=
  match operation.directives with
  | some ds => if ds.length > 0 then " " ++ String.intercalate " " ds else ""
  | none => ""

/-- The document template literal of `compile`. -/
def assembleDoc (operation : BuilderOperation) (signature : String) (body : List String) : String :=
  operation.type.render ++ " " ++ operation.name.getD "" ++ signature ++
    directivesString operation ++ " \x7b\n" ++ String.intercalate "\n" body ++ "\n\x7d"

/-- The `compile` function. -/
def compile (operation : BuilderOperation) (onlyPresentVariableValues : Bool := false) :
    Except String String :=
  match compileFieldSelection operation.fields onlyPresentVariableValues with
  | .error e => .error e
  | .ok body => .ok (assembleDoc operation (compileVariables operation onlyPresentVariableValues) body)

/-- The `compileWithVariableValues` function: the compiled document together
with the flat name-to-value map built from the presence-filtered extraction. -/
def compileWithVariableValues (operation : BuilderOperation) :
    Except String (String × List (String × Option Lit)) :=
  let vars := extractVariables operation.fields true
  match compile operation true with
  | .error e => .error e
  | .ok q => .ok (q, vars.map (fun p => (p.1, p.2.value)))

/-- Signature rendering as the spec describes the declared variable list:
used to state which names the document's variable signature declares. -/
def signatureString (decls : List (String × String)) : String :=
  if decls.isEmpty then ""
  else "(" ++ String.intercalate ", " (decls.map (fun p => "$" ++ p.1 ++ ": " ++ p.2)) ++ ")"

end TinyGraphQL

/-!
Part 2 embeds the action-runner logic of `useAction` and `processResult`
(`packages/react/src/useAction.ts`, bundled in the repository next to the
mock client): the variable pre-processing performed before the mutation is
dispatched, and the post-processing of the mutation result.
-/

namespace GadgetReact

/-- JSON value as it appears in responses and caller-supplied variables. -/
inductive JsonV where
  | null
  | str (s : String)
  | num (n : Int)
  | boolJ (b : Bool)
  | arr (xs : List JsonV)
  | obj (fields : List (String × JsonV))

/-- JS truthiness of a JSON value (`NaN` ignored: numbers are integers). -/
def truthyJ : JsonV → Bool
  | .null => false
  | .str s => s != ""
  | .num n => n != 0
  | .boolJ b => b
  | .arr _ => true
  | .obj _ => true

/-- JS property read `v[k]` for a string key on a JSON value; `undefined`
is `none`.  Array and scalar reads with the non-index keys used here give
`undefined` (the model assumes non-integer-index keys, as in the source). -/
def objGet (v : JsonV) (k : String) : Option JsonV :=
  match v with
  | .obj fields => (fields.find? (fun p => p.1 == k)).map Prod.snd
  | _ => none

/-- Lodash `get(v, path)` for a path of string keys. -/
def getPath (v : JsonV) : List String → Option JsonV
  | [] => some v
  | k :: rest =>
    match objGet v k with
    | some v2 => getPath v2 rest
    | none => none

/-- JS `e[0]` as evaluated by `errors && errors[0]`: first array element,
an object's property `"0"`, or the first character of a string. -/
def jsIndex0 : JsonV → Option JsonV
  | .arr xs => xs.head?
  | .obj fields => (fields.find? (fun p => p.1 == "0")).map Prod.snd
  | .str s =>
    match s.data with
    | c :: _ => some (.str (String.mk [c]))
    | [] => none
  | _ => none

/-- Declared variable of an action descriptor (`action.variables` entry):
only its `type` matters to the runner. -/
structure VariableSpec where
  type : String
deriving DecidableEq, Repr

/-- The slice of the codegen `ActionFunction` descriptor that `useAction`
and `processResult` read.  `nspace` models the descriptor's `namespace`
field and `varDecls` its `variables` field (both Lean keywords or reserved
tokens). -/
structure GadgetAction where
  operationName : String
  nspace : Option String := none
  modelApiIdentifier : String
  modelSelectionField : String
  hasAmbiguousIdentifier : Bool := false
  acceptsModelInput : Bool := false
  hasCreateOrUpdateEffect : Bool := false
  hasReturnType : Bool := false
  paramOnlyVariables : Option (List String) := none
  varDecls : List (String × VariableSpec) := []

/-- An urql `CombinedError`; the runner only reads its `response`. -/
structure CombinedError where
  response : Option JsonV := none

/-- The urql mutation result consumed by `processResult`. -/
structure UrqlResult where
  fetching : Bool := false
  data : Option JsonV := none
  error : Option CombinedError := none

/-- Modelled from the spec: `ErrorWrapper` (from `@gadgetinc/api-client-core`,
whose source is not under `src/`) is the structured error type; it either
wraps a transport/GraphQL `CombinedError` or an `errors: [...]` payload —
"a failed action surfaces a structured error distinguishing transport
failure from reported field errors". -/
inductive ErrorWrapper where
  | combined (e : CombinedError)
  | errorsResponse (errors : JsonV) (response : Option JsonV)

/-- Modelled from the spec: `ErrorWrapper.forMaybeCombinedError` wraps an
urql error when one is present and returns `undefined` otherwise. -/
def forMaybeCombinedError (e : Option CombinedError) : Option ErrorWrapper :=
  e.map ErrorWrapper.combined

/-- The optional chain `error?.response`. -/
def errorWrapperResponse : Option ErrorWrapper → Option JsonV
  | some (.combined e) => e.response
  | some (.errorsResponse _ r) => r
  | none => none

/-- Modelled from the spec: `hydrateRecord` (from
`@gadgetinc/api-client-core`, whose source is not under `src/`) converts the
raw response JSON into a record object — "hydrates returned JSON into typed
record objects".  Modelled as a tag keeping the hydration inputs. -/
inductive HydratedRecord where
  | mk (result : UrqlResult) (raw : Option JsonV)

/-- Modelled from the spec: the `hydrateRecord` call as used by
`processResult`. -/
def hydrateRecord (result : UrqlResult) (raw : Option JsonV) : HydratedRecord :=
  .mk result raw

/-- The `data` slot of a processed action result: `mutationData.result`
for return-typed actions, else the hydrated record. -/
inductive ActionResultData where
  | returned (v : Option JsonV)
  | record (r : HydratedRecord)

/-- The processed action result (`ActionHookState`): the spread urql result
with the `error` and `data` slots replaced. -/
structure ActionHookState where
  fetching : Bool
  data : Option ActionResultData
  error : Option ErrorWrapper

/-- The `dataPath` of `processResult`: `[operationName]`, with the namespace
unshifted when truthy. -/
def dataPath (action : GadgetAction) : List String :=
  match action.nspace with
  | some ns => if ns != "" then [ns, action.operationName] else [action.operationName]
  | none => [action.operationName]

/-- The guard `errors && errors[0]` of `processResult`. -/
def errorsTest (errors : Option JsonV) : Bool :=
  match errors with
  | some e =>
    truthyJ e &&
      (match jsIndex0 e with
       | some x => truthyJ x
       | none => false)
  | none => false

/-- The `processResult` function. -/
def processResult (result : UrqlResult) (action : GadgetAction) : ActionHookState :=
  let error := forMaybeCombinedError result.error
  match result.data with
  | some d =>
    if truthyJ d then
      match getPath d (dataPath action) with
      | some md =>
        if truthyJ md then
          let errors := objGet md "errors"
          if errorsTest errors then
            { fetching := result.fetching, data := none,
              error := some (.errorsResponse (errors.getD .null) (errorWrapperResponse error)) }
          else
            { fetching := result.fetching,
              data := some
                (if action.hasReturnType then .returned (objGet md "result")
                 else .record (hydrateRecord result (objGet md action.modelSelectionField))),
              error := error }
        else { fetching := result.fetching, data := none, error := error }
      | none => { fetching := result.fetching, data := none, error := error }
    else { fetching := result.fetching, data := none, error := error }
  | none => { fetching := result.fetching, data := none, error := error }

/-- JS property assignment on the insertion-ordered variables object. -/
def upsertJ (m : List (String × JsonV)) (k : String) (v : JsonV) : List (String × JsonV) :=
  if m.any (fun p => p.1 == k) then
    m.map (fun p => if p.1 == k then (k, v) else p)
  else
    m ++ [(k, v)]

/-- Key lookup on the variables object. -/
def lookupJ (m : List (String × JsonV)) (k : String) : Option JsonV :=
  (m.find? (fun p => p.1 == k)).map Prod.snd

/-- The test `typeof variables[m] === "object" && variables[m] !== null`
(arrays also have `typeof` `"object"`). -/
def isObjectNonNull : JsonV → Bool
  | .obj _ => true
  | .arr _ => true
  | _ => false

/-- The nested assignment `newVariables[m][key] = value`.  The `m` entry is
always the object installed by the initialiser `{ [m]: {} }`; were it
overwritten with a primitive, strict-mode JS would throw — that branch is a
no-op here and unreachable in the theorems below. -/
def setNested (m : List (String × JsonV)) (outerKey innerKey : String) (v : JsonV) :
    List (String × JsonV) :=
  m.map (fun p =>
    if p.1 == outerKey then
      match p.2 with
      | .obj fields => (p.1, .obj (upsertJ fields innerKey v))
      | other => (p.1, other)
    else p)

/-- Does the declared signature contain an `id` variable of type `GadgetID`
(the `idVariable` find of `useAction`)? -/
def hasIdVariable (action : GadgetAction) : Bool :=
  action.varDecls.any (fun p => p.1 == "id" && p.2.type == "GadgetID")

/-- The `paramOnlyVariables?.includes(key)` test (optional chain on a
possibly-missing list). -/
def isParamOnly (action : GadgetAction) (k : String) : Bool :=
  (action.paramOnlyVariables.getD []).contains k

/-- One iteration of the `useAction` rebuild loop: a declared param-only
variable stays top level, the caller's `id` stays top level when the
declared signature has a `GadgetID`-typed `id`, and every other entry is
assigned into the nested model-input object. -/
def wrapStep (action : GadgetAction) (acc : List (String × JsonV)) (p : String × JsonV) :
    List (String × JsonV) :=
  if isParamOnly action p.1 then upsertJ acc p.1 p.2
  else if hasIdVariable action && p.1 == "id" then upsertJ acc "id" p.2
  else setNested acc action.modelApiIdentifier p.1 p.2

/-- The loop of `useAction` that rebuilds flat caller variables into the
nested `{ [modelApiIdentifier]: {...} }` shape, starting from the
initialiser `{ [modelApiIdentifier]: {} }`. -/
def wrapModelVariables (action : GadgetAction) (vars : List (String × JsonV)) :
    List (String × JsonV) :=
  vars.foldl (wrapStep action) [(action.modelApiIdentifier, .obj [])]

/-- Which caller keys stay at the top level of the rebuilt variables:
the declared param-only ones, and `id` when a `GadgetID`-typed `id`
variable is declared. -/
def topLevelKey (action : GadgetAction) (k : String) : Bool :=
  isParamOnly action k || (hasIdVariable action && k == "id")

/-- The variable pre-processing of the `useAction` callback, run before the
mutation is dispatched: the ambiguous-identifier guard (a thrown `Error` is
`Except.error`), then the model-input nesting.  The returned list is what
`runMutation` is dispatched with. -/
def prepareVariables (action : GadgetAction) (vars : List (String × JsonV)) :
    Except String (List (String × JsonV)) :=
  if action.hasAmbiguousIdentifier &&
      vars.any (fun p => !(isParamOnly action p.1) && p.1 != action.modelApiIdentifier) then
    .error ("Invalid arguments found in variables. Did you mean to use (\x7b " ++
      action.modelApiIdentifier ++ ": \x7b ... \x7d \x7d)?")
  else if action.acceptsModelInput || action.hasCreateOrUpdateEffect then
    match lookupJ vars action.modelApiIdentifier with
    | some v =>
      if isObjectNonNull v then .ok vars
      else .ok (wrapModelVariables action vars)
    | none => .ok (wrapModelVariables action vars)
  else .ok vars

end GadgetReact

/-!
Theorems.  Each claim of the specification is settled below; shared helper
lemmas come first.
-/

namespace TinyGraphQL

/-- Appending the suffix `"1"` changes a string (lengths differ). -/
theorem append_one_ne (n : String) : (n ++ "1") ≠ n := by
  intro h
  have h2 := congrArg String.length h
  rw [String.length_append, show ("1" : String).length = 1 from rfl] at h2
  omega

/-- Evaluation helper: `toString 1 = "1"`. -/
theorem toString_one : toString (1 : Nat) = "1" := rfl

/-- C4 (code bug in the source): the claim — and the `FieldSelection`
interface itself, which admits `null | undefined` values, together with the
spec ("a field mapped to `null` or `undefined` is treated identically to
`false`") — says a `null`-valued field is omitted and compilation succeeds;
the code instead reaches the trailing `else` branch of
`compileFieldSelection` and `Object.entries(null)` throws a `TypeError`.
This theorem evaluates the embedded code at the failing input. -/
theorem compile_null_field_throws :
    compile { type := .query, fields := .cons "foo" .nullV .nil } false =
      .error "TypeError: Cannot convert undefined or null to object" := rfl

/-- C3 (counterexample): two distinct `Variable`s both implicitly named
`id`, one at the top level and one inside a nested selection of the same
tree, do NOT resolve to `id` and `id1`: the nested selection is extracted
into a fresh map and merged with `Object.assign`, so the later variable
silently overwrites the earlier one and only the single name `id` remains. -/
theorem extractVariables_nested_overwrite_cx :
    (extractVariables
        (.cons "a"
          (.callV (.mk [("id", .avar { type := "ID", value := some (.str "1") })] .onone))
          (.cons "b"
            (.selV (.cons "c"
              (.callV (.mk [("id", .avar { type := "ID", value := some (.str "2") })] .onone))
              .nil))
            .nil))
        false =
      [("id", { type := "ID", name := none, value := some (.str "2") })])
    ∧ ((extractVariables
        (.cons "a"
          (.callV (.mk [("id", .avar { type := "ID", value := some (.str "1") })] .onone))
          (.cons "b"
            (.selV (.cons "c"
              (.callV (.mk [("id", .avar { type := "ID", value := some (.str "2") })] .onone))
              .nil))
            .nil))
        false).map Prod.fst ≠ ["id", "id1"]) := by
  refine ⟨rfl, ?_⟩
  intro h
  rw [show (extractVariables
        (.cons "a"
          (.callV (.mk [("id", .avar { type := "ID", value := some (.str "1") })] .onone))
          (.cons "b"
            (.selV (.cons "c"
              (.callV (.mk [("id", .avar { type := "ID", value := some (.str "2") })] .onone))
              .nil))
            .nil))
        false).map Prod.fst = ["id"] from rfl] at h
  exact absurd (congrArg List.length h) (by decide)

/-- C3 (amended): the implicit-name deduplication of `extractVariables`
operates within one (direct) `FieldSelection` level — where it does assign
the argument's name to the first `Variable` and the suffixed name to the
second.  Two sibling `FieldCall`s in the same selection whose unnamed
`Variable`-valued arguments share the argument name `n` are extracted as
`n` and `n1` in traversal order (across nesting levels the later variable
instead overwrites the earlier, see the counterexample). -/
theorem extractVariables_same_level_suffix
    (f1 f2 n : String) (v1 v2 : Variable)
    (h1 : v1.name = none) (h2 : v2.name = none) :
    extractVariables
      (.cons f1 (.callV (.mk [(n, .avar v1)] .onone))
        (.cons f2 (.callV (.mk [(n, .avar v2)] .onone)) .nil))
      false =
      [(n, v1), (n ++ "1", v2)] := by
  have hne : (n == n ++ "1") = false := by
    simp only [beq_eq_false_iff_ne, ne_eq]
    intro h
    exact append_one_ne n h.symm
  simp [extractVariables, extractVarsGo, extractVarsVal, varKeyName, nextName, hasKey,
    findSuffix, upsert, toString_one, h1, h2, hne]

/-- C3 (witness): the amended theorem applied at two sibling calls whose
unnamed `ID`-typed variables both want the argument name `id`. -/
theorem extractVariables_same_level_suffix_witness :
    extractVariables
      (.cons "a" (.callV (.mk [("id", .avar { type := "ID", value := some (.str "1") })] .onone))
        (.cons "b" (.callV (.mk [("id", .avar { type := "ID", value := some (.str "2") })] .onone))
          .nil))
      false =
      [("id", { type := "ID", name := none, value := some (.str "1") }),
       ("id" ++ "1", { type := "ID", name := none, value := some (.str "2") })] :=
  extractVariables_same_level_suffix "a" "b" "id"
    { type := "ID", value := some (.str "1") } { type := "ID", value := some (.str "2") }
    rfl rfl

/-- One step of the argument fold inside `extractVarsVal`
(`variables[value.name ?? nextName(name)] = value` for `Variable` args),
as a named function so the fold can be reasoned about entry by entry. -/
def extractArgStep (acc : List (String × Variable)) : String × ArgValue →
    List (String × Variable)
  | (a, .avar v) => upsert acc (varKeyName acc v a) v
  | (_, _) => acc

/-- Does a call argument carry an explicitly named `Variable` (or no
`Variable` at all)? -/
def explicitArgName : String × ArgValue → Bool
  | (_, .avar v) => v.name.isSome
  | (_, _) => true

/-- The (explicit name, `Variable`) map write performed for one call
argument, when it holds an explicitly named `Variable`. -/
def explicitArgWrite : String × ArgValue → Option (String × Variable)
  | (_, .avar v) => v.name.map (fun n => (n, v))
  | (_, _) => none

mutual
/-- Does every `Variable` that extraction will visit carry an explicit
name?  `FieldCall` subselections are not traversed by extraction and are
therefore unconstrained; implicit naming goes through the `nextName` /
fresh-map machinery settled with C3. -/
def allExplicitNames : FieldSelection → Bool
  | .nil => true
  | .cons _f v rest => allExplicitNamesV v && allExplicitNames rest

/-- Value-level part of `allExplicitNames`. -/
def allExplicitNamesV : FieldValue → Bool
  | .callV (.mk args _sub) => args.all explicitArgName
  | .selV s => allExplicitNames s
  | _ => true
end

mutual
/-- Traversal-order sequence of (explicit name, `Variable`) map writes that
extraction performs on a tree whose visited `Variable`s are all explicitly
named: call arguments in entry order, then deeper entries, field by
field. -/
def explicitWrites : FieldSelection → List (String × Variable)
  | .nil => []
  | .cons _f v rest => explicitWritesV v ++ explicitWrites rest

/-- Value-level part of `explicitWrites`. -/
def explicitWritesV : FieldValue → List (String × Variable)
  | .callV (.mk args _sub) => args.filterMap explicitArgWrite
  | .selV s => explicitWrites s
  | _ => []
end

/-- Key lookup on an extraction map (`variables[n]`). -/
def lookupVar (m : List (String × Variable)) (n : String) : Option Variable :=
  (m.find? (fun p => p.1 == n)).map Prod.snd

/-- The value carried by the last write to name `n` in a write sequence —
the spec-side notion of "the later one in traversal order". -/
def lastWrite (n : String) : List (String × Variable) → Option Variable
  | [] => none
  | w :: ws =>
    match lastWrite n ws with
    | some v => some v
    | none => if w.1 == n then some w.2 else none

/-- The keys of a map are pairwise distinct. -/
def keysNodup (m : List (String × Variable)) : Prop := (m.map Prod.fst).Nodup

/-- The last write in a concatenation is the last write of the second part
when one exists, else of the first. -/
theorem lastWrite_append (n : String) (a c : List (String × Variable)) :
    lastWrite n (a ++ c) =
      match lastWrite n c with
      | some v => some v
      | none => lastWrite n a := by
  induction a with
  | nil => cases h : lastWrite n c <;> simp [lastWrite, h]
  | cons w a ih =>
    rw [List.cons_append, lastWrite, ih, lastWrite]
    cases h : lastWrite n c <;> cases h2 : lastWrite n a <;> simp [h, h2]

/-- Every entry of `upsert m k v` is the written pair or an entry of `m`. -/
theorem mem_upsert {α : Type} (m : List (String × α)) (k : String) (v : α)
    (p : String × α) (h : p ∈ upsert m k v) : p = (k, v) ∨ p ∈ m := by
  rw [upsert] at h
  by_cases hc : m.any (fun q => q.1 == k) = true
  · rw [if_pos hc] at h
    obtain ⟨q, hq, he⟩ := List.mem_map.mp h
    by_cases hqk : (q.1 == k) = true
    · rw [if_pos hqk] at he
      exact Or.inl he.symm
    · rw [if_neg hqk] at he
      exact Or.inr (he ▸ hq)
  · rw [if_neg hc] at h
    rcases List.mem_append.mp h with h | h
    · exact Or.inr h
    · exact Or.inl (List.mem_singleton.mp h)

/-- `upsert` keeps the key list unchanged on overwrite and appends the new
key otherwise. -/
theorem upsert_keys {α : Type} (m : List (String × α)) (k : String) (v : α) :
    (upsert m k v).map Prod.fst =
      if m.any (fun q => q.1 == k) then m.map Prod.fst else m.map Prod.fst ++ [k] := by
  by_cases hc : m.any (fun q => q.1 == k) = true
  · rw [upsert, if_pos hc, if_pos hc, List.map_map]
    exact List.map_congr_left (fun q _ => by
      by_cases hqk : (q.1 == k) = true
      · simp [hqk, eq_of_beq hqk]
      · have hne : q.1 ≠ k := fun he => hqk (by simp [he])
        simp [hqk, hne])
  · rw [upsert, if_neg hc, if_neg hc, List.map_append]
    rfl

/-- `upsert` preserves key distinctness. -/
theorem upsert_keysNodup (m : List (String × Variable)) (k : String) (v : Variable)
    (h : keysNodup m) : keysNodup (upsert m k v) := by
  rw [keysNodup, upsert_keys]
  by_cases hc : m.any (fun q => q.1 == k) = true
  · rw [if_pos hc]
    exact h
  · rw [if_neg hc, List.nodup_append]
    refine ⟨h, List.nodup_singleton k, ?_⟩
    intro x hx hk
    rw [List.mem_singleton.mp hk] at hx
    obtain ⟨q, hq, hq1⟩ := List.mem_map.mp hx
    have hc2 := List.any_eq_false.mp (Bool.eq_false_iff.mpr hc)
    exact (hc2 q hq) (by simp [hq1])

/-- A name outside the key list looks up to nothing. -/
theorem lookupVar_eq_none (m : List (String × Variable)) (n : String)
    (h : n ∉ m.map Prod.fst) : lookupVar m n = none := by
  rw [lookupVar, List.find?_eq_none.mpr, Option.map_none']
  intro q hq
  simp only [beq_iff_eq]
  intro he
  exact h (he ▸ List.mem_map_of_mem Prod.fst hq)

/-- Lookup distributes over concatenation, first part first. -/
theorem lookupVar_append (a c : List (String × Variable)) (n : String) :
    lookupVar (a ++ c) n =
      match lookupVar a n with
      | some v => some v
      | none => lookupVar c n := by
  induction a with
  | nil => rfl
  | cons q a ih =>
    by_cases hq : (q.1 == n) = true
    · have hl : lookupVar ((q :: a) ++ c) n = some q.2 := by
        rw [List.cons_append, lookupVar]
        simp only [List.find?, hq, Option.map_some']
      have hr : lookupVar (q :: a) n = some q.2 := by
        rw [lookupVar]
        simp only [List.find?, hq, Option.map_some']
      rw [hl, hr]
    · have hqf : (q.1 == n) = false := Bool.eq_false_iff.mpr hq
      have hl : lookupVar ((q :: a) ++ c) n = lookupVar (a ++ c) n := by
        rw [List.cons_append, lookupVar]
        simp only [List.find?, hqf]
        rfl
      have hr : lookupVar (q :: a) n = lookupVar a n := by
        rw [lookupVar]
        simp only [List.find?, hqf]
        rfl
      rw [hl, hr, ih]

/-- Lookup steps over one entry by key comparison. -/
theorem lookupVar_cons (q : String × Variable) (m : List (String × Variable)) (n : String) :
    lookupVar (q :: m) n = if (q.1 == n) = true then some q.2 else lookupVar m n := by
  by_cases hq : (q.1 == n) = true
  · rw [if_pos hq, lookupVar]
    simp only [List.find?, hq, Option.map_some']
  · rw [if_neg hq, lookupVar]
    simp only [List.find?, Bool.eq_false_iff.mpr hq]
    rfl

/-- Lookup after the overwrite branch of `upsert`: the found value is
replaced exactly when the looked-up name is the written key. -/
theorem lookupVar_map_overwrite (k : String) (v : Variable) (n : String) :
    ∀ m : List (String × Variable),
      lookupVar (m.map (fun q => if q.1 == k then (k, v) else q)) n =
        match lookupVar m n with
        | some w => some (if (n == k) = true then v else w)
        | none => none := by
  intro m
  induction m with
  | nil => rfl
  | cons q m ih =>
    rw [List.map_cons]
    by_cases hqk : (q.1 == k) = true
    · rw [if_pos hqk]
      by_cases hqn : (q.1 == n) = true
      · have hk : k = q.1 := (eq_of_beq hqk).symm
        have hn : n = q.1 := (eq_of_beq hqn).symm
        rw [lookupVar_cons, lookupVar_cons, if_pos (by simp [hk, hn]), if_pos hqn]
        simp [hn, hk]
      · have hkn : (k == n) = false := by
          have h2 := eq_of_beq hqk
          simp only [beq_eq_false_iff_ne, ne_eq]
          intro he
          exact hqn (by rw [h2, he]; simp)
        rw [lookupVar_cons, lookupVar_cons, if_neg (by simp [hkn]), if_neg hqn, ih]
    · rw [if_neg hqk]
      by_cases hqn : (q.1 == n) = true
      · have hnk : (n == k) = false := by
          simp only [beq_eq_false_iff_ne, ne_eq]
          intro he
          exact hqk (by simp [eq_of_beq hqn, he])
        rw [lookupVar_cons, lookupVar_cons, if_pos hqn, if_pos hqn]
        simp [hnk]
      · rw [lookupVar_cons, lookupVar_cons, if_neg hqn, if_neg hqn, ih]

/-- Lookup through a JS property assignment: the written key now holds the
written value, all other keys are untouched. -/
theorem lookupVar_upsert (m : List (String × Variable)) (k : String) (v : Variable)
    (n : String) :
    lookupVar (upsert m k v) n = if (k == n) = true then some v else lookupVar m n := by
  by_cases hc : m.any (fun q => q.1 == k) = true
  · rw [upsert, if_pos hc, lookupVar_map_overwrite]
    by_cases hkn : (k == n) = true
    · rw [if_pos hkn]
      obtain ⟨q, hq, hqk⟩ := List.any_eq_true.mp hc
      have hqn : (q.1 == n) = true := by simp [eq_of_beq hqk, eq_of_beq hkn]
      have hsome : (m.find? (fun p => p.1 == n)).isSome := by
        rw [List.find?_isSome]
        exact ⟨q, hq, hqn⟩
      obtain ⟨r, hr⟩ := Option.isSome_iff_exists.mp hsome
      have hw : lookupVar m n = some r.2 := by rw [lookupVar, hr]; rfl
      rw [hw]
      have hnk : (n == k) = true := by simp [eq_of_beq hkn]
      simp [hnk]
    · rw [if_neg hkn]
      have hnk : (n == k) = false := by
        simp only [beq_eq_false_iff_ne, ne_eq]
        intro he
        exact hkn (by simp [he])
      cases hl : lookupVar m n <;> simp [hl, hnk]
  · rw [upsert, if_neg hc, lookupVar_append]
    by_cases hkn : (k == n) = true
    · rw [if_pos hkn]
      have hnone : lookupVar m n = none := by
        apply lookupVar_eq_none
        intro hmem
        obtain ⟨q, hq, hq1⟩ := List.mem_map.mp hmem
        have hc2 := List.any_eq_false.mp (Bool.eq_false_iff.mpr hc)
        exact (hc2 q hq) (by simp [hq1, eq_of_beq hkn])
      rw [hnone]
      rw [lookupVar_cons, if_pos hkn]
    · rw [if_neg hkn]
      cases hl : lookupVar m n with
      | some w => simp [hl]
      | none =>
        simp only [hl]
        rw [lookupVar_cons, if_neg hkn]
        rfl

/-- `assignAll` preserves key distinctness of the target map. -/
theorem assignAll_keysNodup (src : List (String × Variable)) :
    ∀ m, keysNodup m → keysNodup (assignAll m src) := by
  induction src with
  | nil => intro m h; exact h
  | cons q src ih =>
    intro m h
    rw [assignAll, List.foldl_cons]
    exact ih (upsert m q.1 q.2) (upsert_keysNodup m q.1 q.2 h)

/-- Every entry of `assignAll m src` comes from `m` or from `src`. -/
theorem mem_assignAll (src : List (String × Variable)) :
    ∀ m p, p ∈ assignAll m src → p ∈ m ∨ p ∈ src := by
  induction src with
  | nil => intro m p h; exact Or.inl h
  | cons q src ih =>
    intro m p h
    rw [assignAll, List.foldl_cons] at h
    rcases ih (upsert m q.1 q.2) p h with h2 | h2
    · rcases mem_upsert m q.1 q.2 p h2 with h3 | h3
      · exact Or.inr (h3 ▸ List.mem_cons_self q src)
      · exact Or.inl h3
    · exact Or.inr (List.mem_cons_of_mem q h2)

/-- Replaying a distinct-keyed map onto a target (`Object.assign`): lookup
prefers the source entry when one exists and falls back to the target. -/
theorem lookupVar_assignAll (src : List (String × Variable)) :
    ∀ m n, keysNodup src →
      lookupVar (assignAll m src) n =
        match lookupVar src n with
        | some v => some v
        | none => lookupVar m n := by
  induction src with
  | nil => intro m n _; rfl
  | cons q src ih =>
    intro m n hnd
    rw [keysNodup, List.map_cons, List.nodup_cons] at hnd
    rw [assignAll, List.foldl_cons]
    have hstep := ih (upsert m q.1 q.2) n hnd.2
    rw [assignAll] at hstep
    rw [hstep, lookupVar_cons]
    by_cases hq : (q.1 == n) = true
    · have hnone : lookupVar src n = none := by
        apply lookupVar_eq_none
        intro hmem
        exact hnd.1 ((eq_of_beq hq) ▸ hmem)
      rw [hnone, if_pos hq, lookupVar_upsert, if_pos hq]
    · rw [if_neg hq]
      cases hl : lookupVar src n with
      | some w => simp [hl]
      | none =>
        simp only [hl]
        rw [lookupVar_upsert, if_neg hq]

/-- The inline argument fold of `extractVarsVal` is pointwise the fold of
`extractArgStep`. -/
theorem argFold_eq (args : List (String × ArgValue)) :
    ∀ m, args.foldl
        (fun acc (q : String × ArgValue) =>
          match q.2 with
          | .avar v => upsert acc (varKeyName acc v q.1) v
          | _ => acc) m =
      args.foldl extractArgStep m := by
  induction args with
  | nil => intro m; rfl
  | cons p args ih =>
    intro m
    obtain ⟨a, av⟩ := p
    rw [List.foldl_cons, List.foldl_cons]
    cases av <;> exact ih _

/-- Bridge from `extractVarsVal` on a call to the named fold. -/
theorem extractVarsVal_call (args : List (String × ArgValue)) (sub : OptFieldSelection)
    (m : List (String × Variable)) :
    extractVarsVal (.callV (.mk args sub)) m = args.foldl extractArgStep m :=
  argFold_eq args m

/-- The argument fold of one `FieldCall` preserves key distinctness. -/
theorem argsFold_keysNodup (args : List (String × ArgValue)) :
    ∀ m, keysNodup m → keysNodup (args.foldl extractArgStep m) := by
  induction args with
  | nil => intro m h; exact h
  | cons p args ih =>
    intro m h
    rw [List.foldl_cons]
    obtain ⟨a, av⟩ := p
    cases av with
    | avar v => exact ih _ (upsert_keysNodup m (varKeyName m v a) v h)
    | lit l => exact ih m h
    | nullArg => exact ih m h
    | undefinedArg => exact ih m h

/-- The argument fold of one `FieldCall` with explicitly named variables
keeps every entry under its own variable's explicit name. -/
theorem argsFold_names (args : List (String × ArgValue)) :
    ∀ m, args.all explicitArgName = true →
      (∀ q ∈ m, q.2.name = some q.1) →
      ∀ q ∈ args.foldl extractArgStep m, q.2.name = some q.1 := by
  induction args with
  | nil => intro m _ hm; exact hm
  | cons p args ih =>
    intro m hexp hm
    rw [List.all_cons, Bool.and_eq_true_iff] at hexp
    rw [List.foldl_cons]
    obtain ⟨a, av⟩ := p
    cases av with
    | avar v =>
      obtain ⟨nm, hnm⟩ := Option.isSome_iff_exists.mp hexp.1
      have hkey : varKeyName m v a = nm := by rw [varKeyName, hnm]
      refine ih (upsert m (varKeyName m v a) v) hexp.2 ?_
      intro q hq
      rcases mem_upsert m (varKeyName m v a) v q hq with h | h
      · rw [h]
        show v.name = some (varKeyName m v a)
        rw [hkey, hnm]
      · exact hm q h
    | lit l => exact ih m hexp.2 hm
    | nullArg => exact ih m hexp.2 hm
    | undefinedArg => exact ih m hexp.2 hm

/-- Lookup after the argument fold of one `FieldCall` with explicitly named
variables: the last write to a name wins, else the accumulator's binding
remains. -/
theorem argsFold_lookup (args : List (String × ArgValue)) :
    ∀ m n, args.all explicitArgName = true →
      lookupVar (args.foldl extractArgStep m) n =
        match lastWrite n (args.filterMap explicitArgWrite) with
        | some v => some v
        | none => lookupVar m n := by
  induction args with
  | nil => intro m n _; rfl
  | cons p args ih =>
    intro m n hexp
    rw [List.all_cons, Bool.and_eq_true_iff] at hexp
    rw [List.foldl_cons]
    obtain ⟨a, av⟩ := p
    cases av with
    | avar v =>
      obtain ⟨nm, hnm⟩ := Option.isSome_iff_exists.mp hexp.1
      have hstep : extractArgStep m (a, .avar v) = upsert m nm v := by
        show upsert m (varKeyName m v a) v = upsert m nm v
        rw [varKeyName, hnm]
      have hfm : explicitArgWrite (a, .avar v) = some (nm, v) := by
        show v.name.map (fun n => (n, v)) = some (nm, v)
        rw [hnm]
        rfl
      rw [hstep, List.filterMap_cons, hfm]
      rw [ih (upsert m nm v) n hexp.2, lastWrite]
      cases hl : lastWrite n (args.filterMap explicitArgWrite) with
      | some w => simp [hl]
      | none =>
        simp only [hl]
        rw [lookupVar_upsert]
        by_cases hnn : (nm == n) = true
        · rw [if_pos hnn]
          simp [hnn]
        · rw [if_neg hnn]
          simp [Bool.eq_false_iff.mpr hnn]
    | lit l =>
      rw [List.filterMap_cons]
      rw [show explicitArgWrite (a, .lit l) = none from rfl]
      exact ih m n hexp.2
    | nullArg =>
      rw [List.filterMap_cons]
      rw [show explicitArgWrite (a, .nullArg) = none from rfl]
      exact ih m n hexp.2
    | undefinedArg =>
      rw [List.filterMap_cons]
      rw [show explicitArgWrite (a, .undefinedArg) = none from rfl]
      exact ih m n hexp.2

/-- Extraction over one field value preserves key distinctness
(both the argument fold and `Object.assign` only `upsert`). -/
theorem extractVarsVal_keysNodup (v : FieldValue) (m : List (String × Variable))
    (h : keysNodup m) : keysNodup (extractVarsVal v m) :=
  match v with
  | .boolV _ => h
  | .nullV => h
  | .callV (.mk args sub) => by
    rw [extractVarsVal_call args sub m]
    exact argsFold_keysNodup args m h
  | .selV s => by
    rw [extractVarsVal]
    exact assignAll_keysNodup (extractVarsGo s []) m h

/-- Extraction preserves key distinctness of the accumulator map. -/
theorem extractVarsGo_keysNodup (s : FieldSelection) (m : List (String × Variable))
    (h : keysNodup m) : keysNodup (extractVarsGo s m) :=
  match s with
  | .nil => h
  | .cons _f v rest =>
    extractVarsGo_keysNodup rest (extractVarsVal v m) (extractVarsVal_keysNodup v m h)

mutual
/-- On an all-explicit tree, every entry the extraction walk produces sits
under its own variable's explicit name — `nextName` is never consulted and
no numeric suffix is manufactured. -/
theorem extractVarsGo_names (s : FieldSelection) (m : List (String × Variable))
    (hexp : allExplicitNames s = true) (hm : ∀ q ∈ m, q.2.name = some q.1) :
    ∀ q ∈ extractVarsGo s m, q.2.name = some q.1 :=
  match s with
  | .nil => hm
  | .cons _f v rest => by
    rw [allExplicitNames, Bool.and_eq_true_iff] at hexp
    rw [extractVarsGo]
    exact extractVarsGo_names rest (extractVarsVal v m) hexp.2
      (extractVarsVal_names v m hexp.1 hm)

/-- Value-level part of `extractVarsGo_names`. -/
theorem extractVarsVal_names (v : FieldValue) (m : List (String × Variable))
    (hexp : allExplicitNamesV v = true) (hm : ∀ q ∈ m, q.2.name = some q.1) :
    ∀ q ∈ extractVarsVal v m, q.2.name = some q.1 :=
  match v with
  | .boolV _ => hm
  | .nullV => hm
  | .callV (.mk args sub) => by
    rw [extractVarsVal_call args sub m]
    rw [allExplicitNamesV] at hexp
    exact argsFold_names args m hexp hm
  | .selV s => by
    rw [extractVarsVal]
    rw [allExplicitNamesV] at hexp
    intro q hq
    rcases mem_assignAll (extractVarsGo s []) m q hq with h | h
    · exact hm q h
    · exact extractVarsGo_names s [] hexp
        (by intro r hr; exact absurd hr (List.not_mem_nil r)) q h
end

mutual
/-- On an all-explicit tree, the extraction walk implements last-write-wins
per name over the traversal-order write sequence — through sibling calls,
same-call arguments and the fresh-map/`Object.assign` merge of nested
selections alike. -/
theorem extractVarsGo_lookup (s : FieldSelection) (m : List (String × Variable))
    (hexp : allExplicitNames s = true) (n : String) :
    lookupVar (extractVarsGo s m) n =
      match lastWrite n (explicitWrites s) with
      | some v => some v
      | none => lookupVar m n :=
  match s with
  | .nil => rfl
  | .cons _f v rest => by
    rw [allExplicitNames, Bool.and_eq_true_iff] at hexp
    rw [extractVarsGo, explicitWrites, lastWrite_append]
    rw [extractVarsGo_lookup rest (extractVarsVal v m) hexp.2 n]
    rw [extractVarsVal_lookup v m hexp.1 n]
    cases h1 : lastWrite n (explicitWrites rest) <;>
      cases h2 : lastWrite n (explicitWritesV v) <;> simp [h1, h2]

/-- Value-level part of `extractVarsGo_lookup`. -/
theorem extractVarsVal_lookup (v : FieldValue) (m : List (String × Variable))
    (hexp : allExplicitNamesV v = true) (n : String) :
    lookupVar (extractVarsVal v m) n =
      match lastWrite n (explicitWritesV v) with
      | some w => some w
      | none => lookupVar m n :=
  match v with
  | .boolV _ => rfl
  | .nullV => rfl
  | .callV (.mk args sub) => by
    rw [extractVarsVal_call args sub m, explicitWritesV]
    rw [allExplicitNamesV] at hexp
    exact argsFold_lookup args m n hexp
  | .selV s => by
    rw [extractVarsVal, explicitWritesV]
    rw [allExplicitNamesV] at hexp
    have hndM : keysNodup (extractVarsGo s []) :=
      extractVarsGo_keysNodup s [] (by simp [keysNodup])
    rw [lookupVar_assignAll (extractVarsGo s []) m n hndM]
    rw [extractVarsGo_lookup s [] hexp n]
    cases h : lastWrite n (explicitWrites s) <;> simp [h, lookupVar]
end

/-- Helper: pre-filtering the nullish argument entries away does not change
the rendered entries. -/
theorem presentEntries_filter_nullish (args : List (String × ArgValue)) (b : Bool) :
    presentEntries (args.filter (fun p => !(isNullish p.2))) b = presentEntries args b := by
  have hff : (args.filter (fun p => !(isNullish p.2))).filter (fun p => !(isNullish p.2)) =
      args.filter (fun p => !(isNullish p.2)) := by
    rw [List.filter_filter]
    exact List.filter_congr (fun p _ => by cases h : isNullish p.2 <;> simp [h])
  cases b <;> simp [presentEntries, hff]

/-- Helper: pre-filtering the absent-variable argument entries away does not
change the rendered entries when `onlyPresentVariableValues` is set. -/
theorem presentEntries_filter_present (args : List (String × ArgValue)) :
    presentEntries (args.filter (fun p => argPresent p.2)) true = presentEntries args true := by
  have h1 : ((args.filter (fun p => argPresent p.2)).filter
        (fun p => !(isNullish p.2))).filter (fun p => argPresent p.2) =
      args.filter (fun p => !(isNullish p.2) && argPresent p.2) := by
    rw [List.filter_filter, List.filter_filter]
    exact List.filter_congr
      (fun p _ => by cases h : argPresent p.2 <;> cases h2 : isNullish p.2 <;> simp [h, h2])
  have h2 : (args.filter (fun p => !(isNullish p.2))).filter (fun p => argPresent p.2) =
      args.filter (fun p => !(isNullish p.2) && argPresent p.2) := by
    rw [List.filter_filter]
    exact List.filter_congr
      (fun p _ => by cases h : argPresent p.2 <;> cases h2 : isNullish p.2 <;> simp [h, h2])
  simp only [presentEntries, if_true]
  rw [h1, h2]

/-- C10: an argument whose value is the JS literal `null` or `undefined`
(not a `Variable`) never reaches the rendered argument list of its field —
also when `onlyPresentVariableValues` is `false` — and a call all of whose
arguments are dropped this way renders an empty argument string, i.e. the
field carries no parentheses at all. -/
theorem nullish_args_omitted (f : String) (args : List (String × ArgValue))
    (sub : OptFieldSelection) (b : Bool) :
    (compileFieldSelection (.cons f (.callV (.mk args sub)) .nil) b =
      compileFieldSelection
        (.cons f (.callV (.mk (args.filter (fun p => !(isNullish p.2))) sub)) .nil) b)
    ∧ ((∀ p ∈ args, isNullish p.2 = true) → callArgsString args b = "") := by
  constructor
  · cases sub with
    | onone =>
      simp [compileFieldSelection, compileEntries, compileEntryLines, callArgsString,
        presentEntries_filter_nullish]
    | osome s =>
      simp [compileFieldSelection, compileEntries, compileEntryLines, callArgsString,
        presentEntries_filter_nullish]
  · intro hall
    have h0 : args.filter (fun p => !(isNullish p.2)) = [] := by
      rw [List.filter_eq_nil_iff]
      intro p hp
      simp [hall p hp]
    cases b <;> simp [callArgsString, presentEntries, h0]

/-- C10 (witness): the omission theorem applied at a call whose two
arguments are the literals `null` and `undefined`: the rendered argument
string is empty. -/
theorem nullish_args_omitted_witness :
    callArgsString [("a", ArgValue.nullArg), ("b", ArgValue.undefinedArg)] false = "" :=
  (nullish_args_omitted "user" [("a", ArgValue.nullArg), ("b", ArgValue.undefinedArg)]
    .onone false).2 (by decide)

/-- C2: with `onlyPresentVariableValues` set, (1) every variable surviving
extraction — the signature and the returned variables map are built from
exactly these entries — has a present value, so a `Variable` whose value is
null/undefined is omitted from the document's variable signature; (2) every
entry of the variables map returned by `compileWithVariableValues` carries a
present value; (3) no rendered argument entry references an absent
`Variable`; and (4) dropping the absent-`Variable` arguments of a call does
not change its field's compilation at all. -/
theorem onlyPresent_absent_variables_omitted (op : BuilderOperation) :
    (∀ p ∈ extractVariables op.fields true, p.2.present = true)
    ∧ (∀ q vars, compileWithVariableValues op = .ok (q, vars) → ∀ p ∈ vars, p.2.isSome = true)
    ∧ (∀ (args : List (String × ArgValue)) (p : String × ArgValue),
        p ∈ presentEntries args true → argPresent p.2 = true)
    ∧ (∀ (f : String) (args : List (String × ArgValue)) (sub : OptFieldSelection),
        compileFieldSelection (.cons f (.callV (.mk args sub)) .nil) true =
          compileFieldSelection
            (.cons f (.callV (.mk (args.filter (fun p => argPresent p.2)) sub)) .nil) true) := by
  have hextract : ∀ p ∈ extractVariables op.fields true, p.2.present = true := by
    intro p hp
    simp only [extractVariables] at hp
    exact (List.mem_filter.mp hp).2
  refine ⟨hextract, ?_, ?_, ?_⟩
  · intro q vars h p hp
    simp only [compileWithVariableValues] at h
    cases hc : compile op true with
    | error e => rw [hc] at h; exact absurd h (by simp)
    | ok q2 =>
      rw [hc] at h
      simp only [Except.ok.injEq, Prod.mk.injEq] at h
      rw [← h.2] at hp
      obtain ⟨orig, horig, hmap⟩ := List.mem_map.mp hp
      rw [← hmap]
      exact hextract orig horig
  · intro args p hp
    simp only [presentEntries, if_true] at hp
    exact (List.mem_filter.mp hp).2
  · intro f args sub
    cases sub with
    | onone =>
      simp [compileFieldSelection, compileEntries, compileEntryLines, callArgsString,
        presentEntries_filter_present]
    | osome s =>
      simp [compileFieldSelection, compileEntries, compileEntryLines, callArgsString,
        presentEntries_filter_present]

/-- C2 (witness): the omission theorem applied at an operation holding one
present and one absent variable: the extraction and the variables map keep
only the present one, and dropping the absent argument leaves the compiled
field unchanged. -/
theorem onlyPresent_absent_variables_omitted_witness :
    (extractVariables
        (.cons "user"
          (.callV (.mk [("id", .avar { type := "ID", value := some (.str "1") }),
                        ("tag", .avar { type := "String", name := some "tag" })] .onone))
          .nil) true =
      [("id", { type := "ID", name := none, value := some (.str "1") })])
    ∧ (∀ p ∈ extractVariables
        ({ type := OpType.query,
           fields := .cons "user"
            (.callV (.mk [("id", .avar { type := "ID", value := some (.str "1") }),
                          ("tag", .avar { type := "String", name := some "tag" })] .onone))
            .nil } : BuilderOperation).fields true, p.2.present = true) :=
  ⟨rfl,
    (onlyPresent_absent_variables_omitted
      { type := OpType.query,
        fields := .cons "user"
          (.callV (.mk [("id", .avar { type := "ID", value := some (.str "1") }),
                        ("tag", .avar { type := "String", name := some "tag" })] .onone))
          .nil }).1⟩

/-- Helper: `compileVariables` renders exactly the declarations obtained by
pairing each extracted variable's assigned name with its declared type. -/
theorem compileVariables_eq_signatureString (op : BuilderOperation) (b : Bool) :
    compileVariables op b =
      signatureString ((extractVariables op.fields b).map (fun p => (p.1, p.2.type))) := by
  cases hE : extractVariables op.fields b with
  | nil => simp [compileVariables, signatureString, hE]
  | cons x xs => simp [compileVariables, signatureString, hE, Function.comp_def]

/-- C1: for every operation on which `compileWithVariableValues` succeeds,
the keys of the returned variables map are exactly (as an ordered list) the
variable names declared by the document's variable signature: the map's
keys coincide with the presence-filtered extraction's keys, the signature
of the compiled document renders precisely those names with their types,
and the returned query embeds that signature. -/
theorem compileWithVariableValues_keys_match_signature (op : BuilderOperation) (q : String)
    (vars : List (String × Option Lit))
    (h : compileWithVariableValues op = .ok (q, vars)) :
    (vars.map Prod.fst = (extractVariables op.fields true).map Prod.fst)
    ∧ (compileVariables op true =
        signatureString ((extractVariables op.fields true).map (fun p => (p.1, p.2.type))))
    ∧ (∃ body, q = assembleDoc op (compileVariables op true) body) := by
  simp only [compileWithVariableValues] at h
  cases hc : compile op true with
  | error e => rw [hc] at h; exact absurd h (by simp)
  | ok q2 =>
    rw [hc] at h
    simp only [Except.ok.injEq, Prod.mk.injEq] at h
    refine ⟨?_, compileVariables_eq_signatureString op true, ?_⟩
    · rw [← h.2, List.map_map]
      rfl
    · simp only [compile] at hc
      cases hb : compileFieldSelection op.fields true with
      | error e => rw [hb] at hc; exact absurd hc (by simp)
      | ok body =>
        rw [hb] at hc
        simp only [Except.ok.injEq] at hc
        exact ⟨body, by rw [← h.1, ← hc]⟩

/-- C1 (witness): the keys theorem applied at the spec's worked example
`{ user: Call({ id: Var({type: "ID", value: "1"}) }, { name: true }) }`. -/
theorem compileWithVariableValues_keys_match_signature_witness :
    (compileWithVariableValues
        { type := OpType.query,
          fields := .cons "user"
            (.callV (.mk [("id", .avar { type := "ID", value := some (.str "1") })]
              (.osome (.cons "name" (.boolV true) .nil)))) .nil } =
      .ok ("query ($id: ID) \x7b\n  user(id: $id) \x7b\n    name\n  \x7d\n\x7d",
        [("id", some (.str "1"))]))
    ∧ (([("id", some (Lit.str "1"))] : List (String × Option Lit)).map Prod.fst =
      (extractVariables
        ({ type := OpType.query,
           fields := .cons "user"
            (.callV (.mk [("id", .avar { type := "ID", value := some (.str "1") })]
              (.osome (.cons "name" (.boolV true) .nil)))) .nil } : BuilderOperation).fields
        true).map Prod.fst) :=
  ⟨rfl,
    (compileWithVariableValues_keys_match_signature
      { type := OpType.query,
        fields := .cons "user"
          (.callV (.mk [("id", .avar { type := "ID", value := some (.str "1") })]
            (.osome (.cons "name" (.boolV true) .nil)))) .nil }
      "query ($id: ID) \x7b\n  user(id: $id) \x7b\n    name\n  \x7d\n\x7d"
      [("id", some (.str "1"))] rfl).1⟩

mutual
/-- Does a selection contain no `FieldCall` at any nesting depth? -/
def noCalls : FieldSelection → Bool
  | .nil => true
  | .cons _f v rest => noCallsV v && noCalls rest

/-- Value-level part of `noCalls`. -/
def noCallsV : FieldValue → Bool
  | .callV _ => false
  | .selV s => noCalls s
  | _ => true
end

mutual
/-- Does a selection map no field to `null`/`undefined` at any depth? -/
def noNullValues : FieldSelection → Bool
  | .nil => true
  | .cons _f v rest => noNullValuesV v && noNullValues rest

/-- Value-level part of `noNullValues`. -/
def noNullValuesV : FieldValue → Bool
  | .nullV => false
  | .selV s => noNullValues s
  | .callV (.mk _ (.osome s)) => noNullValues s
  | _ => true
end

mutual
/-- Are all field names at all depths non-empty strings? -/
def nonemptyNames : FieldSelection → Bool
  | .nil => true
  | .cons f v rest => (f != "") && nonemptyNamesV v && nonemptyNames rest

/-- Value-level part of `nonemptyNames`. -/
def nonemptyNamesV : FieldValue → Bool
  | .selV s => nonemptyNames s
  | .callV (.mk _ (.osome s)) => nonemptyNames s
  | _ => true
end

mutual
/-- Rendering described by the spec for call-free selections: exactly the
field names mapped to `true`, each nested under its parent's braces, one
two-space indent unit per level. -/
def specRender : FieldSelection → List String
  | .nil => []
  | .cons f v rest => specRenderEntry f v ++ specRender rest

/-- Spec-side rendering of one call-free entry: a `true` field is its name,
a nested selection opens braces around its recursive rendering, everything
else renders nothing. -/
def specRenderEntry (f : String) : FieldValue → List String
  | .boolV true => ["  " ++ f]
  | .selV s => ("  " ++ f ++ " \x7b") :: (specRender s).map (fun l => "  " ++ l) ++ ["  \x7d"]
  | _ => []
end

/-- Concatenating with a non-empty string yields a non-empty string. -/
theorem append_ne_empty (a b : String) (h : 0 < a.length + b.length) : (a ++ b) ≠ "" := by
  intro he
  have h2 := congrArg String.length he
  rw [String.length_append, show ("" : String).length = 0 from rfl] at h2
  omega

/-- The per-level postlude distributes over concatenation of line lists. -/
theorem finishLevel_append (a c : List String) :
    finishLevel (a ++ c) = finishLevel a ++ finishLevel c := by
  simp [finishLevel]

/-- Every line produced by `finishLevel` is non-empty, so a second falsy
filter keeps them all. -/
theorem filter_finishLevel (lines : List String) :
    (finishLevel lines).filter (fun l => l != "") = finishLevel lines := by
  apply List.filter_eq_self.mpr
  intro l hl
  obtain ⟨y, _, rfl⟩ := List.mem_map.mp hl
  simp only [bne_iff_ne, ne_eq]
  exact append_ne_empty "  " y (by have h2 : ("  " : String).length = 2 := rfl; omega)

mutual
/-- A call-free selection contributes no variables: the extraction walk
returns its accumulator unchanged. -/
theorem extractVarsGo_noCalls (s : FieldSelection) (vars : List (String × Variable))
    (h : noCalls s = true) : extractVarsGo s vars = vars :=
  match s with
  | .nil => rfl
  | .cons f v rest => by
    rw [extractVarsGo]
    obtain ⟨hv, hr⟩ := Bool.and_eq_true_iff.mp (by simpa [noCalls] using h)
    rw [extractVarsVal_noCallsV v vars hv]
    exact extractVarsGo_noCalls rest vars hr

/-- Value-level part of `extractVarsGo_noCalls`. -/
theorem extractVarsVal_noCallsV (v : FieldValue) (vars : List (String × Variable))
    (h : noCallsV v = true) : extractVarsVal v vars = vars :=
  match v with
  | .boolV _ => rfl
  | .nullV => rfl
  | .callV _ => by simp [noCallsV] at h
  | .selV s => by
    rw [extractVarsVal, extractVarsGo_noCalls s [] (by simpa [noCallsV] using h)]
    rfl
end

/-- The per-level postlude of a brace block: when the head, the middle
lines and the closing brace all survive the falsy filter, `finishLevel`
just indents each line. -/
theorem finishLevel_block (hd : String) (hne : (hd != "") = true) (mid : List String)
    (hmid : mid.filter (fun l => l != "") = mid) (tl : String) (htl : (tl != "") = true) :
    finishLevel (hd :: mid ++ [tl]) =
      ("  " ++ hd) :: mid.map (fun l => "  " ++ l) ++ ["  " ++ tl] := by
  simp [finishLevel, List.filter_cons, List.filter_append, hne, htl, hmid]

mutual
/-- Main induction for C5: on a call-free, null-free selection with
non-empty field names, the `flatMap` stage succeeds and its finished lines
are exactly the spec-side rendering. -/
theorem compileEntries_plain (s : FieldSelection) (b : Bool)
    (h1 : noCalls s = true) (h2 : noNullValues s = true) (h3 : nonemptyNames s = true) :
    ∃ lines, compileEntries s b = .ok lines ∧ finishLevel lines = specRender s :=
  match s with
  | .nil => ⟨[], rfl, rfl⟩
  | .cons f v rest => by
    rw [noCalls] at h1
    rw [noNullValues] at h2
    rw [nonemptyNames] at h3
    obtain ⟨hv1, hr1⟩ := Bool.and_eq_true_iff.mp h1
    obtain ⟨hv2, hr2⟩ := Bool.and_eq_true_iff.mp h2
    obtain ⟨hfv, hr3⟩ := Bool.and_eq_true_iff.mp h3
    obtain ⟨hf, hv3⟩ := Bool.and_eq_true_iff.mp hfv
    obtain ⟨lv, hlv, hlv2⟩ := compileEntryLines_plain f v b hv1 hv2 hv3 hf
    obtain ⟨lr, hlr, hlr2⟩ := compileEntries_plain rest b hr1 hr2 hr3
    refine ⟨lv ++ lr, ?_, ?_⟩
    · rw [compileEntries, hlv, hlr]
      rfl
    · rw [finishLevel_append, hlv2, hlr2, specRender]

/-- Entry-level part of the C5 induction. -/
theorem compileEntryLines_plain (f : String) (v : FieldValue) (b : Bool)
    (h1 : noCallsV v = true) (h2 : noNullValuesV v = true) (h3 : nonemptyNamesV v = true)
    (hf : (f != "") = true) :
    ∃ lines, compileEntryLines f v b = .ok lines ∧ finishLevel lines = specRenderEntry f v :=
  match v with
  | .boolV true => ⟨[f], rfl, by simp [finishLevel, specRenderEntry, hf]⟩
  | .boolV false => ⟨[], rfl, rfl⟩
  | .nullV => by simp [noNullValuesV] at h2
  | .callV _ => by simp [noCallsV] at h1
  | .selV s => by
    obtain ⟨inner, hin, hin2⟩ :=
      compileEntries_plain s b (by simpa [noCallsV] using h1)
        (by simpa [noNullValuesV] using h2) (by simpa [nonemptyNamesV] using h3)
    refine ⟨(f ++ " \x7b") :: finishLevel inner ++ ["\x7d"], ?_, ?_⟩
    · rw [compileEntryLines, hin]
      rfl
    · rw [specRenderEntry, ← hin2]
      rw [finishLevel_block (f ++ " \x7b")
        (by simp only [bne_iff_ne, ne_eq]
            exact append_ne_empty f " \x7b" (by have h4 : (" \x7b" : String).length = 2 := rfl; omega))
        (finishLevel inner) (filter_finishLevel inner) "\x7d" (by decide)]
      rw [← String.append_assoc]
      rfl
end

/-- C5 (counterexample): the claim quantifies over every call-free
selection, but a field named by the empty string and mapped to `true` is
silently dropped by the `!!value` filter (its line is the falsy `""`), and
a call-free selection containing a `null` value makes compilation throw
instead of rendering the remaining `true` fields — so the compiled output
does not always contain exactly the `true`-mapped field names. -/
theorem compile_empty_name_dropped_cx :
    (noCalls (.cons "" (.boolV true) .nil) = true)
    ∧ (compileFieldSelection (.cons "" (.boolV true) .nil) false = .ok [])
    ∧ (specRender (.cons "" (.boolV true) .nil) = ["  "])
    ∧ (([] : List String) ≠ ["  "])
    ∧ (noCalls (.cons "a" .nullV .nil) = true
        ∧ compileFieldSelection (.cons "a" .nullV .nil) false =
          .error "TypeError: Cannot convert undefined or null to object") := by
  exact ⟨rfl, rfl, rfl, by decide, rfl, rfl⟩

/-- C5 (amended): for every selection that contains no `FieldCall`, no
`null`/`undefined` value and no empty field name, `compile` succeeds, the
body lines are exactly the `true`-mapped field names nested under their
parents' braces (the spec-side rendering), and the document carries no
variable signature. -/
theorem compile_no_calls_spec (op : BuilderOperation) (b : Bool)
    (h1 : noCalls op.fields = true) (h2 : noNullValues op.fields = true)
    (h3 : nonemptyNames op.fields = true) :
    (compile op b = .ok (assembleDoc op "" (specRender op.fields)))
    ∧ (compileVariables op b = "")
    ∧ (compileFieldSelection op.fields b = .ok (specRender op.fields)) := by
  have hv : extractVariables op.fields b = [] := by
    simp [extractVariables, extractVarsGo_noCalls op.fields [] h1]
  have hcv : compileVariables op b = "" := by simp [compileVariables, hv]
  obtain ⟨lines, hl, hl2⟩ := compileEntries_plain op.fields b h1 h2 h3
  have hcf : compileFieldSelection op.fields b = .ok (specRender op.fields) := by
    rw [compileFieldSelection, hl]
    show Except.ok (finishLevel lines) = Except.ok (specRender op.fields)
    rw [hl2]
  refine ⟨?_, hcv, hcf⟩
  rw [compile, hcf, hcv]

/-- C5 (witness): the amended theorem applied at the call-free selection
`{ id: true, user: { name: true } }`. -/
theorem compile_no_calls_spec_witness :
    compile
      { type := OpType.query,
        fields := .cons "id" (.boolV true)
          (.cons "user" (.selV (.cons "name" (.boolV true) .nil)) .nil) }
      false =
    .ok (assembleDoc
      { type := OpType.query,
        fields := .cons "id" (.boolV true)
          (.cons "user" (.selV (.cons "name" (.boolV true) .nil)) .nil) }
      ""
      (specRender (.cons "id" (.boolV true)
        (.cons "user" (.selV (.cons "name" (.boolV true) .nil)) .nil)))) :=
  (compile_no_calls_spec
    { type := OpType.query,
      fields := .cons "id" (.boolV true)
        (.cons "user" (.selV (.cons "name" (.boolV true) .nil)) .nil) }
    false rfl rfl rfl).1

end TinyGraphQL

namespace GadgetReact

/-- Assigning a fresh key appends the entry. -/
theorem upsertJ_append (m : List (String × JsonV)) (k : String) (v : JsonV)
    (h : ∀ q ∈ m, q.1 ≠ k) : upsertJ m k v = m ++ [(k, v)] := by
  have hb : m.any (fun p => p.1 == k) = false := by
    rw [List.any_eq_false]
    intro q hq
    simp [h q hq]
  simp [upsertJ, hb]

/-- Nested assignment is the identity on entries whose key differs from the
outer key. -/
theorem setNested_skip (m k : String) (v : JsonV) :
    ∀ acc : List (String × JsonV), (∀ q ∈ acc, q.1 ≠ m) → setNested acc m k v = acc := by
  intro acc h
  induction acc with
  | nil => rfl
  | cons q qs ih =>
    rw [setNested, List.map_cons, if_neg (by simp [h q (List.mem_cons_self q qs)])]
    have h2 := ih (fun r hr => h r (List.mem_cons_of_mem q hr))
    rw [setNested] at h2
    rw [h2]

/-- Nested assignment under the model key updates the head object of the
accumulator and leaves the other top-level entries unchanged. -/
theorem setNested_head (m : String) (accInner : List (String × JsonV))
    (accTop : List (String × JsonV)) (k : String) (v : JsonV)
    (hTopM : ∀ q ∈ accTop, q.1 ≠ m) :
    setNested ((m, .obj accInner) :: accTop) m k v =
      (m, .obj (upsertJ accInner k v)) :: accTop := by
  have hskip := setNested_skip m k v accTop hTopM
  rw [setNested] at hskip
  rw [setNested, List.map_cons, hskip]
  simp

/-- Invariant of the `useAction` rebuild loop: over caller entries with
fresh keys distinct from the model identifier, the loop places the
top-level keys (param-only and declared `id`) after the accumulator's
top-level entries and assigns everything else, in order, into the nested
model-input object. -/
theorem wrapFold (action : GadgetAction) (vars : List (String × JsonV)) :
    ∀ accInner accTop : List (String × JsonV),
    (∀ p ∈ vars, p.1 ≠ action.modelApiIdentifier) →
    (∀ q ∈ accTop, q.1 ≠ action.modelApiIdentifier) →
    (∀ p ∈ vars, ∀ q ∈ accTop, p.1 ≠ q.1) →
    (∀ p ∈ vars, ∀ q ∈ accInner, p.1 ≠ q.1) →
    (vars.map Prod.fst).Nodup →
    vars.foldl (wrapStep action) ((action.modelApiIdentifier, .obj accInner) :: accTop) =
      (action.modelApiIdentifier,
        .obj (accInner ++ vars.filter (fun p => !(topLevelKey action p.1)))) ::
        (accTop ++ vars.filter (fun p => topLevelKey action p.1)) := by
  induction vars with
  | nil => intro accInner accTop _ _ _ _ _; simp
  | cons p rest ih =>
    intro accInner accTop hm hTopM hTop hInner hnd
    have hmp : p.1 ≠ action.modelApiIdentifier := hm p (List.mem_cons_self p rest)
    rw [List.map_cons, List.nodup_cons] at hnd
    have hndTail := hnd.2
    have hndHead : p.1 ∉ rest.map Prod.fst := hnd.1
    have hRestNe : ∀ q ∈ rest, q.1 ≠ p.1 := by
      intro q hq he
      exact hndHead (he ▸ List.mem_map_of_mem Prod.fst hq)
    have hFreshAcc :
        ∀ q ∈ (action.modelApiIdentifier, JsonV.obj accInner) :: accTop, q.1 ≠ p.1 := by
      intro q hq
      rcases List.mem_cons.mp hq with h | h
      · rw [h]; exact fun hh => hmp hh.symm
      · exact fun hh => hTop p (List.mem_cons_self p rest) q h hh.symm
    rw [List.foldl_cons]
    cases hTL : topLevelKey action p.1 with
    | true =>
      have hstep :
          wrapStep action ((action.modelApiIdentifier, .obj accInner) :: accTop) p =
            (action.modelApiIdentifier, .obj accInner) :: (accTop ++ [(p.1, p.2)]) := by
        have happ := upsertJ_append
          ((action.modelApiIdentifier, .obj accInner) :: accTop) p.1 p.2 hFreshAcc
        cases hp : isParamOnly action p.1 with
        | true =>
          rw [wrapStep, if_pos hp]
          rw [happ]
          rfl
        | false =>
          have hid : (hasIdVariable action && (p.1 == "id")) = true := by
            have h2 := hTL
            rw [topLevelKey, hp] at h2
            simpa using h2
          have hpid : p.1 = "id" := eq_of_beq (Bool.and_eq_true_iff.mp hid).2
          rw [wrapStep, if_neg (by simp [hp]), if_pos hid, ← hpid, happ]
          rfl
      rw [hstep]
      rw [ih accInner (accTop ++ [(p.1, p.2)])
        (fun q hq => hm q (List.mem_cons_of_mem p hq))
        (by
          intro q hq
          rcases List.mem_append.mp hq with h | h
          · exact hTopM q h
          · rw [List.mem_singleton.mp h]; exact hmp)
        (by
          intro p2 hp2 q hq
          rcases List.mem_append.mp hq with h | h
          · exact hTop p2 (List.mem_cons_of_mem p hp2) q h
          · rw [List.mem_singleton.mp h]; exact hRestNe p2 hp2)
        (fun p2 hp2 q hq => hInner p2 (List.mem_cons_of_mem p hp2) q hq)
        hndTail]
      rw [List.filter_cons, List.filter_cons, hTL]
      simp
    | false =>
      have hps := Bool.or_eq_false_iff.mp (by rw [topLevelKey] at hTL; exact hTL)
      have hstep :
          wrapStep action ((action.modelApiIdentifier, .obj accInner) :: accTop) p =
            (action.modelApiIdentifier, .obj (accInner ++ [(p.1, p.2)])) :: accTop := by
        rw [wrapStep, if_neg (by simp [hps.1]), if_neg (by simp [hps.2])]
        rw [setNested_head action.modelApiIdentifier accInner accTop p.1 p.2 hTopM]
        rw [upsertJ_append accInner p.1 p.2
          (fun q hq hh => hInner p (List.mem_cons_self p rest) q hq hh.symm)]
      rw [hstep]
      rw [ih (accInner ++ [(p.1, p.2)]) accTop
        (fun q hq => hm q (List.mem_cons_of_mem p hq))
        hTopM
        (fun p2 hp2 q hq => hTop p2 (List.mem_cons_of_mem p hp2) q hq)
        (by
          intro p2 hp2 q hq
          rcases List.mem_append.mp hq with h | h
          · exact hInner p2 (List.mem_cons_of_mem p hp2) q h
          · rw [List.mem_singleton.mp h]; exact hRestNe p2 hp2)
        hndTail]
      rw [List.filter_cons, List.filter_cons, hTL]
      simp

end GadgetReact

namespace GadgetReact

/-- C6 (counterexample): the mutation payload carries the non-empty errors
array `[null]` under the mutation result field, yet — because the guard is
`errors && errors[0]` and `errors[0]` is the falsy `null` — `processResult`
takes the success branch: `data` is the hydrated record, not `null`, and
`error` is `null` rather than a populated structured error. -/
theorem processResult_falsy_first_error_cx :
    (objGet (.obj [("errors", .arr [.null]), ("widget", .obj [("id", .str "1")])]) "errors" =
      some (.arr [JsonV.null]))
    ∧ ((processResult
        { data := some (.obj [("createWidget",
            .obj [("errors", .arr [.null]), ("widget", .obj [("id", .str "1")])])]) }
        { operationName := "createWidget", modelApiIdentifier := "widget",
          modelSelectionField := "widget" }).data =
      some (.record (hydrateRecord
        { data := some (.obj [("createWidget",
            .obj [("errors", .arr [.null]), ("widget", .obj [("id", .str "1")])])]) }
        (some (.obj [("id", .str "1")])))))
    ∧ ((processResult
        { data := some (.obj [("createWidget",
            .obj [("errors", .arr [.null]), ("widget", .obj [("id", .str "1")])])]) }
        { operationName := "createWidget", modelApiIdentifier := "widget",
          modelSelectionField := "widget" }).error = none) :=
  ⟨rfl, rfl, rfl⟩

/-- C6 (amended): for a mutation payload whose errors array under the
mutation result field has a truthy first element, `processResult` yields
`data = null` and a populated structured error; for a payload with a direct
result (the `errors && errors[0]` guard fails), no transport error, and a
record-returning action, it yields the hydrated record and a `null`
error. -/
theorem processResult_errors_and_direct (result : UrqlResult) (action : GadgetAction) :
    (∀ d md errs e0,
      result.data = some d → truthyJ d = true →
      getPath d (dataPath action) = some md → truthyJ md = true →
      objGet md "errors" = some errs → truthyJ errs = true →
      jsIndex0 errs = some e0 → truthyJ e0 = true →
      ((processResult result action).data = none
        ∧ (processResult result action).error.isSome = true))
    ∧ (∀ d md,
      result.data = some d → truthyJ d = true →
      getPath d (dataPath action) = some md → truthyJ md = true →
      errorsTest (objGet md "errors") = false →
      result.error = none → action.hasReturnType = false →
      ((processResult result action).data =
          some (.record (hydrateRecord result (objGet md action.modelSelectionField)))
        ∧ (processResult result action).error = none)) := by
  constructor
  · intro d md errs e0 hd htd hmd htmd herr hterr hi0 hti0
    have het : errorsTest (objGet md "errors") = true := by
      rw [herr]
      simp [errorsTest, hterr, hi0, hti0]
    simp [processResult, hd, htd, hmd, htmd, het]
  · intro d md hd htd hmd htmd hne herr hret
    simp [processResult, hd, htd, hmd, htmd, hne, herr, hret, forMaybeCombinedError]

/-- C6 (witness): the amended theorem applied at a payload with a truthy
error object and at a payload with a direct record result. -/
theorem processResult_errors_and_direct_witness :
    (((processResult
        { data := some (.obj [("createWidget",
            .obj [("errors", .arr [.obj [("message", .str "boom")]])])]) }
        { operationName := "createWidget", modelApiIdentifier := "widget",
          modelSelectionField := "widget" }).data = none)
      ∧ ((processResult
        { data := some (.obj [("createWidget",
            .obj [("errors", .arr [.obj [("message", .str "boom")]])])]) }
        { operationName := "createWidget", modelApiIdentifier := "widget",
          modelSelectionField := "widget" }).error.isSome = true))
    ∧ (((processResult
        { data := some (.obj [("createWidget", .obj [("widget", .obj [("id", .str "1")])])]) }
        { operationName := "createWidget", modelApiIdentifier := "widget",
          modelSelectionField := "widget" }).data =
        some (.record (hydrateRecord
          { data := some (.obj [("createWidget", .obj [("widget", .obj [("id", .str "1")])])]) }
          (some (.obj [("id", .str "1")])))))
      ∧ ((processResult
        { data := some (.obj [("createWidget", .obj [("widget", .obj [("id", .str "1")])])]) }
        { operationName := "createWidget", modelApiIdentifier := "widget",
          modelSelectionField := "widget" }).error = none)) :=
  ⟨(processResult_errors_and_direct
      { data := some (.obj [("createWidget",
          .obj [("errors", .arr [.obj [("message", .str "boom")]])])]) }
      { operationName := "createWidget", modelApiIdentifier := "widget",
        modelSelectionField := "widget" }).1
    (.obj [("createWidget", .obj [("errors", .arr [.obj [("message", .str "boom")]])])])
    (.obj [("errors", .arr [.obj [("message", .str "boom")]])])
    (.arr [.obj [("message", .str "boom")]])
    (.obj [("message", .str "boom")])
    rfl rfl rfl rfl rfl rfl rfl rfl,
   (processResult_errors_and_direct
      { data := some (.obj [("createWidget", .obj [("widget", .obj [("id", .str "1")])])]) }
      { operationName := "createWidget", modelApiIdentifier := "widget",
        modelSelectionField := "widget" }).2
    (.obj [("createWidget", .obj [("widget", .obj [("id", .str "1")])])])
    (.obj [("widget", .obj [("id", .str "1")])])
    rfl rfl rfl rfl rfl rfl rfl⟩

/-- C7 (counterexample): an action that accepts model input but is not
flagged `hasAmbiguousIdentifier` does NOT raise on an unexpected top-level
key: the unexpected `foo` — outside the (empty) param-only set and distinct
from the model identifier — is silently nested under the model identifier
and the call proceeds to dispatch. -/
theorem prepareVariables_no_ambiguous_no_error_cx :
    (isParamOnly
        { operationName := "createWidget", modelApiIdentifier := "widget",
          modelSelectionField := "widget", acceptsModelInput := true,
          paramOnlyVariables := some [] } "foo" = false)
    ∧ ("foo" ≠ "widget")
    ∧ (GadgetAction.acceptsModelInput
        { operationName := "createWidget", modelApiIdentifier := "widget",
          modelSelectionField := "widget", acceptsModelInput := true,
          paramOnlyVariables := some [] } = true)
    ∧ (GadgetAction.hasAmbiguousIdentifier
        { operationName := "createWidget", modelApiIdentifier := "widget",
          modelSelectionField := "widget", acceptsModelInput := true,
          paramOnlyVariables := some [] } = false)
    ∧ (prepareVariables
        { operationName := "createWidget", modelApiIdentifier := "widget",
          modelSelectionField := "widget", acceptsModelInput := true,
          paramOnlyVariables := some [] }
        [("foo", .str "x")] =
      .ok [("widget", .obj [("foo", .str "x")])]) :=
  ⟨rfl, by decide, rfl, rfl, rfl⟩

/-- C7 (amended): the unexpected-key guard is gated on the action's
`hasAmbiguousIdentifier` flag: for such an action, a caller variables
object containing a top-level key outside the declared param-only set and
distinct from the model identifier makes the runner throw before anything
is dispatched (the `Except.error` branch is taken before the mutation
variables are even built). -/
theorem prepareVariables_ambiguous_raises (action : GadgetAction)
    (vars : List (String × JsonV)) (k : String) (v : JsonV)
    (hAmb : action.hasAmbiguousIdentifier = true)
    (hmem : (k, v) ∈ vars)
    (hp : isParamOnly action k = false)
    (hk : k ≠ action.modelApiIdentifier) :
    prepareVariables action vars =
      .error ("Invalid arguments found in variables. Did you mean to use (\x7b " ++
        action.modelApiIdentifier ++ ": \x7b ... \x7d \x7d)?") := by
  have hany :
      vars.any (fun p => !(isParamOnly action p.1) && p.1 != action.modelApiIdentifier) = true :=
    List.any_eq_true.mpr ⟨(k, v), hmem, by simp [hp, hk]⟩
  simp [prepareVariables, hAmb, hany]

/-- C7 (witness): the amended theorem applied at an ambiguous-identifier
action receiving the unexpected key `foo`. -/
theorem prepareVariables_ambiguous_raises_witness :
    prepareVariables
      { operationName := "updateWidget", modelApiIdentifier := "widget",
        modelSelectionField := "widget", acceptsModelInput := true,
        hasAmbiguousIdentifier := true, paramOnlyVariables := some [] }
      [("foo", .str "x")] =
    .error ("Invalid arguments found in variables. Did you mean to use (\x7b " ++
      "widget" ++ ": \x7b ... \x7d \x7d)?") :=
  prepareVariables_ambiguous_raises
    { operationName := "updateWidget", modelApiIdentifier := "widget",
      modelSelectionField := "widget", acceptsModelInput := true,
      hasAmbiguousIdentifier := true, paramOnlyVariables := some [] }
    [("foo", .str "x")] "foo" (.str "x") rfl (List.Mem.head _) rfl (by decide)

/-- C8: for an action accepting model input (ambiguous-identifier guard
not in play), (1) a variables object already nested under the model
identifier — its value an object — is dispatched unchanged; (2) a flat
variables object (model identifier absent, keys distinct) is rebuilt with
every declared param-only entry and the declared `GadgetID`-typed `id`
entry kept at top level, in caller order, and all remaining field values
wrapped, in caller order, inside the object nested under the model
identifier key. -/
theorem prepareVariables_model_input_wrapping (action : GadgetAction)
    (vars : List (String × JsonV)) :
    (∀ v, action.acceptsModelInput = true → action.hasAmbiguousIdentifier = false →
      lookupJ vars action.modelApiIdentifier = some v → isObjectNonNull v = true →
      prepareVariables action vars = .ok vars)
    ∧ (action.acceptsModelInput = true → action.hasAmbiguousIdentifier = false →
      lookupJ vars action.modelApiIdentifier = none →
      (vars.map Prod.fst).Nodup →
      prepareVariables action vars =
        .ok ((action.modelApiIdentifier,
            .obj (vars.filter (fun p => !(topLevelKey action p.1)))) ::
          vars.filter (fun p => topLevelKey action p.1))) := by
  constructor
  · intro v hAcc hAmb hlook hobj
    simp [prepareVariables, hAmb, hAcc, hlook, hobj]
  · intro hAcc hAmb hlook hnd
    have hm : ∀ p ∈ vars, p.1 ≠ action.modelApiIdentifier := by
      intro p hp he
      have hfind : vars.find? (fun q => q.1 == action.modelApiIdentifier) = none := by
        have h2 := hlook
        rw [lookupJ] at h2
        exact Option.map_eq_none'.mp h2
      have h3 := List.find?_eq_none.mp hfind p hp
      simp [he] at h3
    simp [prepareVariables, hAmb, hAcc, hlook]
    have := wrapFold action vars [] [] hm (by intro q hq; exact absurd hq (List.not_mem_nil q))
      (by intro p hp q hq; exact absurd hq (List.not_mem_nil q))
      (by intro p hp q hq; exact absurd hq (List.not_mem_nil q)) hnd
    rw [wrapModelVariables]
    simpa using this

end GadgetReact

namespace GadgetReact

/-- C8 (witness): the wrapping theorem applied at an update action with a
declared `GadgetID`-typed `id` and the param-only variable `force`: an
already-nested variables object passes through unchanged, and a flat one is
rebuilt with `id` and `force` on top and `name` nested under `widget`. -/
theorem prepareVariables_model_input_wrapping_witness :
    (prepareVariables
        { operationName := "updateWidget", modelApiIdentifier := "widget",
          modelSelectionField := "widget", acceptsModelInput := true,
          paramOnlyVariables := some ["force"],
          varDecls := [("id", { type := "GadgetID" })] }
        [("widget", .obj [("name", .str "n")])] =
      .ok [("widget", .obj [("name", .str "n")])])
    ∧ (prepareVariables
        { operationName := "updateWidget", modelApiIdentifier := "widget",
          modelSelectionField := "widget", acceptsModelInput := true,
          paramOnlyVariables := some ["force"],
          varDecls := [("id", { type := "GadgetID" })] }
        [("id", .str "7"), ("name", .str "n"), ("force", .boolJ true)] =
      .ok (("widget",
          .obj (List.filter
            (fun p => !(topLevelKey
              { operationName := "updateWidget", modelApiIdentifier := "widget",
                modelSelectionField := "widget", acceptsModelInput := true,
                paramOnlyVariables := some ["force"],
                varDecls := [("id", { type := "GadgetID" })] } p.1))
            [("id", .str "7"), ("name", .str "n"), ("force", .boolJ true)])) ::
        List.filter
          (fun p => topLevelKey
            { operationName := "updateWidget", modelApiIdentifier := "widget",
              modelSelectionField := "widget", acceptsModelInput := true,
              paramOnlyVariables := some ["force"],
              varDecls := [("id", { type := "GadgetID" })] } p.1)
          [("id", .str "7"), ("name", .str "n"), ("force", .boolJ true)])) :=
  ⟨(prepareVariables_model_input_wrapping
      { operationName := "updateWidget", modelApiIdentifier := "widget",
        modelSelectionField := "widget", acceptsModelInput := true,
        paramOnlyVariables := some ["force"],
        varDecls := [("id", { type := "GadgetID" })] }
      [("widget", .obj [("name", .str "n")])]).1
    (.obj [("name", .str "n")]) rfl rfl rfl rfl,
   (prepareVariables_model_input_wrapping
      { operationName := "updateWidget", modelApiIdentifier := "widget",
        modelSelectionField := "widget", acceptsModelInput := true,
        paramOnlyVariables := some ["force"],
        varDecls := [("id", { type := "GadgetID" })] }
      [("id", .str "7"), ("name", .str "n"), ("force", .boolJ true)]).2
    rfl rfl rfl (by decide)⟩

end GadgetReact
